import Mathlib

/-!
# libdar: archive header flags, block-device entries and CURL option lists

A shallow embedding of three headers of libdar

* `header_version.hpp`: the `VERSION_FLAG_*` constants and `struct header_version`;
* `cat_blockdev.hpp`: `class blockdev`;
* `mycurl_param_element.hpp`: `mycurl_param_element<T>` and `mycurl_param_list`;

followed by theorems about them.  `unsigned char` values are `Fin 256`, so a
value that does not fit a byte is excluded by the type; wider unsigned
arithmetic is done in `Nat` and truncated with an explicit `% 256` where the
C++ assigns back to an `unsigned char`.
-/

namespace libdar

/-! ## header_version.hpp : flag values -/

/-- One `unsigned char` / `char` of the program. -/
abbrev Byte := Fin 256

def VERSION_FLAG_SAVED_EA_ROOT : Nat := 0x80
def VERSION_FLAG_SAVED_EA_USER : Nat := 0x40
def VERSION_FLAG_SCRAMBLED : Nat := 0x20
def VERSION_FLAG_SEQUENCE_MARK : Nat := 0x10
def VERSION_FLAG_INITIAL_OFFSET : Nat := 0x08
def VERSION_FLAG_HAS_CRYPTED_KEY : Nat := 0x04
def VERSION_FLAG_HAS_AN_EXTENDED_SIZE : Nat := 0x01

/-- The seven `VERSION_FLAG_*` constants in the order of their declaration. -/
def VERSION_FLAGS : List Nat :=
  [VERSION_FLAG_SAVED_EA_ROOT, VERSION_FLAG_SAVED_EA_USER, VERSION_FLAG_SCRAMBLED,
   VERSION_FLAG_SEQUENCE_MARK, VERSION_FLAG_INITIAL_OFFSET, VERSION_FLAG_HAS_CRYPTED_KEY,
   VERSION_FLAG_HAS_AN_EXTENDED_SIZE]

/-- All bits of a `U_I` (32 bit unsigned) set: the value of `~0u`. -/
def U_I_MAX : Nat := 4294967295

/-- The test `(flag & c) != 0` on the one-byte field `header_version::flag`. -/
def flag_test (flag : Byte) (c : Nat) : Bool := (flag.val &&& c) != 0

/-- The update `flag |= c`: the byte is widened, or-ed with the `U_I` constant
and the result is stored back into the `unsigned char`. -/
def flag_set (flag : Byte) (c : Nat) : Byte :=
  ⟨(flag.val ||| c) % 256, Nat.mod_lt _ (by decide)⟩

/-- The update `flag &= ~c` with `c` a `U_I` constant: `~c` is `U_I_MAX - c`,
and the result is stored back into the `unsigned char`. -/
def flag_clear (flag : Byte) (c : Nat) : Byte :=
  ⟨(flag.val &&& (U_I_MAX - c)) % 256, Nat.mod_lt _ (by decide)⟩

/-! ## header_version.hpp : the header record and its codec -/

/-- The `struct header_version`.  `archive_version`, `infinint` and
`crypto_algo` are declared in headers that are not part of the sources at
hand: the edition and the initial offset are natural numbers, the symmetric
algorithm is its one-byte identifier.  `crypted_key` is a nullable pointer to
a `memory_file`, here an optional byte sequence. -/
structure header_version where
  edition : Nat
  algo_zip : Byte
  cmd_line : List Byte
  flag : Byte
  initial_offset : Nat
  sym : Byte
  crypted_key : Option (List Byte)
deriving DecidableEq

/-- Modelled from the spec: `infinint::dump` is missing from the sources.  The
spec asks for "a self-delimiting variable-length encoding" of
arbitrary-precision integers and leaves the bit pattern open; this one emits
seven bits a byte, least significant group first, the top bit of a byte
telling that another byte follows. -/
def infinint_dump (n : Nat) : List Byte :=
  if h : n < 128 then [⟨n, by omega⟩]
  else ⟨128 + n % 128, by omega⟩ :: infinint_dump (n / 128)
decreasing_by omega

/-- Modelled from the spec: `infinint::read` is missing from the sources; the
inverse of `infinint_dump`, failing (end of stream) when the stream stops
before the last byte of the number. -/
def infinint_read : List Byte → Option (Nat × List Byte)
  | [] => none
  | b :: rest =>
    if b.val < 128 then some (b.val, rest)
    else
      match infinint_read rest with
      | none => none
      | some (v, rest') => some ((b.val - 128) + 128 * v, rest')

/-- Modelled from the spec: `generic_file::read` of one byte is missing from
the sources; the spec's port fails with end-of-stream when fewer bytes remain
than asked for. -/
def read_byte : List Byte → Option (Byte × List Byte)
  | [] => none
  | b :: rest => some (b, rest)

/-- Modelled from the spec: `generic_file::read(n)` is missing from the
sources; it yields the next `n` bytes, or fails when fewer remain. -/
def read_bytes (n : Nat) (f : List Byte) : Option (List Byte × List Byte) :=
  if n ≤ f.length then some (f.take n, f.drop n) else none

/-- Modelled from the spec: the string writer is missing from the sources.
The comment "must round-trip byte-for-byte", so it is written as its length
followed by its bytes; the key blob is written the same way. -/
def write_blob (s : List Byte) : List Byte := infinint_dump s.length ++ s

/-- Modelled from the spec: the string reader is missing from the sources;
the inverse of `write_blob`. -/
def read_blob (f : List Byte) : Option (List Byte × List Byte) :=
  match infinint_read f with
  | none => none
  | some (n, rest) => read_bytes n rest

/-- Modelled from the spec: part of the missing body of `header_version::write`,
the flag byte it puts on the stream.  The comments of
`VERSION_FLAG_INITIAL_OFFSET` and of the field `initial_offset` say that the
flag is "updated according to initial_offset's value" at dump time, and the
spec says the same of `HAS_CRYPTED_KEY` and the key blob. -/
def header_version.written_flag (h : header_version) : Byte :=
  let f1 := if h.initial_offset ≠ 0 then flag_set h.flag VERSION_FLAG_INITIAL_OFFSET
            else flag_clear h.flag VERSION_FLAG_INITIAL_OFFSET
  if h.crypted_key.isSome then flag_set f1 VERSION_FLAG_HAS_CRYPTED_KEY
  else flag_clear f1 VERSION_FLAG_HAS_CRYPTED_KEY

/-- Modelled from the spec: the body of `header_version::write` is missing from
the sources (only its declaration is there).  Spec, section 4.3: "before
encoding, recompute `INITIAL_OFFSET` from the cleartext-prefix length and
`HAS_CRYPTED_KEY` from whether a key blob is attached [...]; then write
edition, compression id, comment, flags, and - conditionally - prefix length
and key blob".  The symmetric algorithm identifier is written as one byte
between the two, where the data model lists it.  The result is the bytes
appended to the stream. -/
def header_version.write (h : header_version) : List Byte :=
  let flag := h.written_flag
  infinint_dump h.edition
    ++ [h.algo_zip]
    ++ write_blob h.cmd_line
    ++ [flag]
    ++ (if h.initial_offset ≠ 0 then infinint_dump h.initial_offset else [])
    ++ [h.sym]
    ++ (match h.crypted_key with
        | some key => write_blob key
        | none => [])

/-- Modelled from the spec: the body of `header_version::read` is missing from
the sources.  Spec, section 4.3: it "reads the fixed-position fields first
(edition, compression id, comment, flags) [...] then conditionally reads the
prefix length and key blob per the bits observed"; a stream that ends too
early is a format error (`none`).  The result is the header and the rest of
the stream. -/
def header_version.read (f : List Byte) : Option (header_version × List Byte) := do
  let (edition, f) ← infinint_read f
  let (algo_zip, f) ← read_byte f
  let (cmd_line, f) ← read_blob f
  let (flag, f) ← read_byte f
  let (initial_offset, f) ←
    if flag_test flag VERSION_FLAG_INITIAL_OFFSET then infinint_read f else some (0, f)
  let (sym, f) ← read_byte f
  let (crypted_key, f) ←
    if flag_test flag VERSION_FLAG_HAS_CRYPTED_KEY then
      (read_blob f).map (fun r => (some r.1, r.2))
    else some (none, f)
  some ({ edition := edition, algo_zip := algo_zip, cmd_line := cmd_line, flag := flag,
          initial_offset := initial_offset, sym := sym, crypted_key := crypted_key }, f)

/-! ## cat_blockdev.hpp : block devices -/

/-- Modelled from the spec: `enum saved_status` is declared in a header that
is not part of the sources; the spec's data model lists its values as
saved-in-full, not-saved-unchanged-since-reference, saved-as-delta,
inode-metadata-only and absent. -/
inductive saved_status where
  | saved_in_full
  | not_saved_unchanged
  | saved_as_delta
  | inode_metadata_only
  | absent
deriving DecidableEq

/-- Every value of `saved_status`, in the order of the declaration. -/
def saved_status.all : List saved_status :=
  [.saved_in_full, .not_saved_unchanged, .saved_as_delta, .inode_metadata_only, .absent]

/-- A 16 bit unsigned integer (`U_16`). -/
abbrev U_16 := Fin 65536

/-- The byte of an ASCII character literal such as `'b'`. -/
def char_byte (c : Char) : Byte := ⟨c.toNat % 256, Nat.mod_lt _ (by decide)⟩

/-- The object state of a `blockdev`: the arguments of its constructor, which
it hands unchanged to `device` (lines 47-56), and the saved status kept by the
base class.  `infinint` is a natural number; `datetime` is declared elsewhere
and is a natural number of time units here. -/
structure blockdev where
  uid : Nat
  gid : Nat
  perm : U_16
  last_access : Nat
  last_modif : Nat
  last_change : Nat
  name : String
  major : U_16
  minor : U_16
  fs_device : Nat
  saved : saved_status
deriving DecidableEq

/-- The accessor `get_saved_status()` inherited from the base class. -/
def blockdev.get_saved_status (self : blockdev) : saved_status := self.saved

/-- Modelled from the spec: `mk_signature` is defined in a file that is not
part of the sources.  Spec, section 4.2: it "packs the kind letter into the
low bits and a save-status code into high bits (exact bit layout is an
internal contract [...])".  The layout is kept open: `code` gives the status
code, which takes the three high bits of the byte, and the five low bits of
the letter (enough to tell the 26 lower-case letters apart) take the rest. -/
def mk_signature (code : saved_status → Nat) (base : Byte) (state : saved_status) : Byte :=
  ⟨(code state * 32 + base.val % 32) % 256, Nat.mod_lt _ (by decide)⟩

/-- Modelled from the spec: the decoder of a signature byte is not part of the
sources.  Spec, section 4.2: "`decode(byte) → (kind_letter, save_status)` is
the exact inverse; decoding a byte with no registered kind letter fails".
`registered` is the list of registered kind letters; the letter is rebuilt
from the five low bits, the status is the one whose code the three high bits
hold, and a byte with no such letter or status is refused (`none`). -/
def decode_signature (registered : List Byte) (code : saved_status → Nat) (sig : Byte) :
    Option (Byte × saved_status) :=
  let base : Byte := ⟨96 + sig.val % 32, by omega⟩
  if base ∈ registered then
    (saved_status.all.find? (fun s => code s == sig.val / 32)).map (fun s => (base, s))
  else none

/-- The method `blockdev::signature` (line 67):
`return mk_signature('b', get_saved_status());` -/
def blockdev.signature (code : saved_status → Nat) (self : blockdev) : Byte :=
  mk_signature code (char_byte 'b') self.get_saved_status

/-- The implicit copy constructor `blockdev(const blockdev &)`, which copies
the object member by member. -/
def blockdev.copy (ref : blockdev) : blockdev :=
  { uid := ref.uid, gid := ref.gid, perm := ref.perm,
    last_access := ref.last_access, last_modif := ref.last_modif,
    last_change := ref.last_change, name := ref.name,
    major := ref.major, minor := ref.minor, fs_device := ref.fs_device,
    saved := ref.saved }

/-- The memory pool of `get_pool()`: the objects allocated so far, the address
of an object being its position. -/
abbrev Pool := List blockdev

/-- The expression `new (get_pool()) blockdev(ref)`: a fresh object is added to
the pool and its address returned. -/
def Pool.new_blockdev (pool : Pool) (ref : blockdev) : Pool × Nat :=
  (pool ++ [blockdev.copy ref], pool.length)

/-- The method `blockdev::clone` (line 68) called on the object at address
`self`: `return new (get_pool()) blockdev(*this);`.  It gives the pool after
the call and the address returned; `none` when `self` is no object of the
pool. -/
def blockdev.clone (pool : Pool) (self : Nat) : Option (Pool × Nat) :=
  match pool[self]? with
  | none => none
  | some this => some (pool.new_blockdev this)

/-! ## mycurl_param_element.hpp : heterogeneous option lists -/

section mycurl

variable {Tag : Type} [DecidableEq Tag] {Val : Tag → Type} [∀ t, BEq (Val t)]

/-- An object whose static type is `mycurl_param_element_generic`.  The only
classes deriving from it are the `mycurl_param_element<T>`, so the object is a
value type `T` (one of the codes `Tag`, standing for the C++ type `Val T`) and
the member `val` of that type. -/
structure mycurl_param_element_generic (Val : Tag → Type) where
  T : Tag
  val : Val T

/-- The expression `dynamic_cast<const mycurl_param_element<T>*>(&arg)`
followed by a read of `val`: the value when the dynamic type of `arg` is
`mycurl_param_element<T>`, `none` for the null pointer otherwise. -/
def mycurl_param_element_generic.dynamic_cast (T : Tag)
    (arg : mycurl_param_element_generic Val) : Option (Val T) :=
  if h : arg.T = T then some (h ▸ arg.val) else none

/-- The method `mycurl_param_element<T>::operator ==` (lines 88-94). -/
def mycurl_param_element_generic.eq (self arg : mycurl_param_element_generic Val) : Bool :=
  match arg.dynamic_cast self.T with
  | none => false
  | some arg_val => arg_val == self.val

/-- The method `mycurl_param_element_generic::operator !=` (line 71):
`return ! (*this == val);` -/
def mycurl_param_element_generic.ne (self arg : mycurl_param_element_generic Val) : Bool :=
  ! (self.eq arg)

/-- The method `mycurl_param_element<T>::clone` (lines 100-105):
`std::make_unique<mycurl_param_element<T> >(val)`. -/
def mycurl_param_element_generic.clone (self : mycurl_param_element_generic Val) :
    mycurl_param_element_generic Val :=
  { T := self.T, val := self.val }

/-- A `CURLoption`: libcurl's enumeration, ordered by its integer value. -/
abbrev CURLoption := Nat

/-- The type of `element_list`,
`std::map<CURLoption, std::unique_ptr<mycurl_param_element_generic> >`: the
entries in the order of their keys; a `unique_ptr` may be null (`none`). -/
abbrev element_map (Val : Tag → Type) :=
  List (CURLoption × Option (mycurl_param_element_generic Val))

/-- The representation invariant of a `std::map`: the keys strictly increase. -/
def element_map.ordered (m : element_map Val) : Prop :=
  m.Pairwise (fun a b => a.1 < b.1)

/-- No entry of the map holds a null pointer. -/
def element_map.no_null (m : element_map Val) : Prop :=
  ∀ e ∈ m, e.2.isSome = true

/-- The call `std::map::find`: the mapped pointer, or `none` for `end()`. -/
def element_map.find (opt : CURLoption) :
    element_map Val → Option (Option (mycurl_param_element_generic Val))
  | [] => none
  | (k, v) :: rest => if opt = k then some v else element_map.find opt rest

/-- The assignment `m[opt] = v` of a `std::map`: the entry of `opt` is
replaced, or a new one is inserted at its place in the order of the keys. -/
def element_map.assign (opt : CURLoption) (v : Option (mycurl_param_element_generic Val)) :
    element_map Val → element_map Val
  | [] => [(opt, v)]
  | (k, w) :: rest =>
    if opt < k then (opt, v) :: (k, w) :: rest
    else if opt = k then (opt, v) :: rest
    else (k, w) :: element_map.assign opt v rest

/-- The class `mycurl_param_list`; the read cursor plays no part in the methods
below and is left out. -/
structure mycurl_param_list (Val : Tag → Type) where
  element_list : element_map Val

/-- The method `mycurl_param_list::add<T>` (line 129):
`element_list[opt] = std::make_unique<mycurl_param_element<T> >(val);` -/
def mycurl_param_list.add (self : mycurl_param_list Val) (T : Tag) (opt : CURLoption)
    (val : Val T) : mycurl_param_list Val :=
  { element_list := self.element_list.assign opt (some { T := T, val := val }) }

/-- The method `mycurl_param_list::size` (line 132): the number of entries,
converted to the 32 bit `U_I` it returns. -/
def mycurl_param_list.size (self : mycurl_param_list Val) : Nat :=
  self.element_list.length % 2 ^ 32

/-- The method `mycurl_param_list::get_val<T>` (lines 156-176).  `val` is the
caller's pointer before the call (`none` for null, else the value it points
to); the result is the boolean returned and the pointer after the call. -/
def mycurl_param_list.get_val (self : mycurl_param_list Val) (T : Tag) (opt : CURLoption)
    (val : Option (Val T)) : Bool × Option (Val T) :=
  match self.element_list.find opt with
  | none => (false, val)
  | some it_second =>
    match it_second with
    | some elem =>
      match elem.dynamic_cast T with
      | some v => (true, some v)
      | none => (true, none)
    | none => (true, none)

/-- The method `mycurl_param_list::add_clone` (line 195):
`element_list[opt] = val.clone();` -/
def mycurl_param_list.add_clone (self : mycurl_param_list Val) (opt : CURLoption)
    (val : mycurl_param_element_generic Val) : mycurl_param_list Val :=
  { element_list := self.element_list.assign opt (some val.clone) }

/-- Modelled from the spec: the body of `mycurl_param_list::update_with` is
missing from the sources (the header only declares it), and the spec leaves
the option lists out; the model follows the comment of the declaration
(lines 181-186): "if a CURLoption in wanted is not present in 'this' it is
added with the associated value and the CURLoption is added to the returned
list.  If a CURLoption is present in both wanted and "this" and its value
differ between the two lists it is updated in "this" and the option is added
to the returned list, else nothing is changed and the option is not added to
the returned list."  The entries of `wanted` are visited in the order of the
map, values are compared with `operator !=` and stored with `add_clone`;
dereferencing a null pointer has no defined result (`none`). -/
def mycurl_param_list.update_with_loop (self : mycurl_param_list Val) :
    element_map Val → Option (mycurl_param_list Val × List CURLoption)
  | [] => some (self, [])
  | (opt, wit_second) :: rest =>
    match wit_second with
    | none => none
    | some w =>
      let modified : Option Bool :=
        match self.element_list.find opt with
        | none => some true
        | some mit_second => mit_second.map (fun m => m.ne w)
      match modified with
      | none => none
      | some true =>
        (mycurl_param_list.update_with_loop (self.add_clone opt w) rest).map
          (fun r => (r.1, opt :: r.2))
      | some false => mycurl_param_list.update_with_loop self rest

/-- Modelled from the spec: `mycurl_param_list::update_with` (declared at line
188), see `update_with_loop`: the list after the call and the list of
modified options returned. -/
def mycurl_param_list.update_with (self wanted : mycurl_param_list Val) :
    Option (mycurl_param_list Val × List CURLoption) :=
  self.update_with_loop wanted.element_list

/-- The condition under which the comment of `update_with` has an option of
`wanted` modified: it "is not present in 'this'", or it is present and "its
value differ between the two lists" (`w` being the value in `wanted`). -/
def mycurl_param_list.differs (self : mycurl_param_list Val) (opt : CURLoption)
    (w : mycurl_param_element_generic Val) : Bool :=
  match self.element_list.find opt with
  | none => true
  | some none => false
  | some (some m) => m.ne w

end mycurl


/-! ## Concrete inputs -/

/-- The block device of the spec's scenario: uid 0, gid 0, permission 0o660,
major 8, minor 1, name "sdb", filesystem device 12345, saved in full (the
dates, which the scenario leaves open, are 0). -/
def blockdev_sdb : blockdev :=
  { uid := 0, gid := 0, perm := 0o660, last_access := 0, last_modif := 0, last_change := 0,
    name := "sdb", major := 8, minor := 1, fs_device := 12345,
    saved := saved_status.saved_in_full }

/-- One assignment of status codes, for concrete evaluations. -/
def status_code_sample : saved_status → Nat
  | .saved_in_full => 3
  | .not_saved_unchanged => 2
  | .saved_as_delta => 1
  | .inode_metadata_only => 4
  | .absent => 7

/-- A registry of kind letters for concrete evaluations: block and character
devices. -/
def kind_letters_sample : List Byte := [char_byte 'b', char_byte 'c']

/-- Two value types for concrete evaluations of the option lists. -/
inductive sample_type where
  | t_long
  | t_string
deriving DecidableEq

/-- The values of a `sample_type`. -/
def sample_val : sample_type → Type
  | .t_long => Int
  | .t_string => String

instance sample_val_beq : (t : sample_type) → BEq (sample_val t)
  | .t_long => (inferInstance : BEq Int)
  | .t_string => (inferInstance : BEq String)

/-- A `mycurl_param_element<long>`. -/
def elem_long (v : Int) : mycurl_param_element_generic sample_val :=
  { T := sample_type.t_long, val := v }

/-- A `mycurl_param_element<std::string>`. -/
def elem_string (v : String) : mycurl_param_element_generic sample_val :=
  { T := sample_type.t_string, val := v }

/-- An option list with two options. -/
def list_sample : mycurl_param_list sample_val :=
  { element_list := [(1, some (elem_long 5)), (2, some (elem_string "a"))] }

/-- A wanted list: option 1 as in `list_sample`, option 2 with another value,
option 3 new. -/
def wanted_sample : mycurl_param_list sample_val :=
  { element_list := [(1, some (elem_long 5)), (2, some (elem_string "b")),
                     (3, some (elem_long 7))] }

/-! ## Header codec -/

theorem infinint_read_dump (n : Nat) (rest : List Byte) :
    infinint_read (infinint_dump n ++ rest) = some (n, rest) := by
  induction n using Nat.strong_induction_on with
  | _ n ih =>
    rw [infinint_dump]
    by_cases h : n < 128
    · simp [h, infinint_read]
    · have hlt : n / 128 < n := by omega
      simp only [h, dite_false, List.cons_append, infinint_read]
      rw [ih _ hlt]
      have h1 : ¬ (128 + n % 128 < 128) := by omega
      simp only [h1, if_false]
      congr 2
      omega

theorem read_bytes_append (s rest : List Byte) :
    read_bytes s.length (s ++ rest) = some (s, rest) := by
  simp [read_bytes]

theorem read_blob_write (s rest : List Byte) :
    read_blob (write_blob s ++ rest) = some (s, rest) := by
  simp [read_blob, write_blob, List.append_assoc, infinint_read_dump, read_bytes_append]

set_option maxRecDepth 100000 in
theorem written_flag_bits_aux : ∀ f : Byte,
    (flag_test (flag_set (flag_set f VERSION_FLAG_INITIAL_OFFSET) VERSION_FLAG_HAS_CRYPTED_KEY)
        VERSION_FLAG_INITIAL_OFFSET = true
      ∧ flag_test (flag_set (flag_set f VERSION_FLAG_INITIAL_OFFSET) VERSION_FLAG_HAS_CRYPTED_KEY)
        VERSION_FLAG_HAS_CRYPTED_KEY = true)
    ∧ (flag_test (flag_clear (flag_set f VERSION_FLAG_INITIAL_OFFSET) VERSION_FLAG_HAS_CRYPTED_KEY)
        VERSION_FLAG_INITIAL_OFFSET = true
      ∧ flag_test (flag_clear (flag_set f VERSION_FLAG_INITIAL_OFFSET) VERSION_FLAG_HAS_CRYPTED_KEY)
        VERSION_FLAG_HAS_CRYPTED_KEY = false)
    ∧ (flag_test (flag_set (flag_clear f VERSION_FLAG_INITIAL_OFFSET) VERSION_FLAG_HAS_CRYPTED_KEY)
        VERSION_FLAG_INITIAL_OFFSET = false
      ∧ flag_test (flag_set (flag_clear f VERSION_FLAG_INITIAL_OFFSET) VERSION_FLAG_HAS_CRYPTED_KEY)
        VERSION_FLAG_HAS_CRYPTED_KEY = true)
    ∧ (flag_test (flag_clear (flag_clear f VERSION_FLAG_INITIAL_OFFSET) VERSION_FLAG_HAS_CRYPTED_KEY)
        VERSION_FLAG_INITIAL_OFFSET = false
      ∧ flag_test (flag_clear (flag_clear f VERSION_FLAG_INITIAL_OFFSET) VERSION_FLAG_HAS_CRYPTED_KEY)
        VERSION_FLAG_HAS_CRYPTED_KEY = false) := by
  decide

theorem written_flag_initial_offset (h : header_version) :
    flag_test h.written_flag VERSION_FLAG_INITIAL_OFFSET = decide (h.initial_offset ≠ 0) := by
  have aux := written_flag_bits_aux h.flag
  unfold header_version.written_flag
  by_cases h0 : h.initial_offset = 0 <;> cases hk : h.crypted_key <;> simp [h0, aux]

theorem written_flag_has_crypted_key (h : header_version) :
    flag_test h.written_flag VERSION_FLAG_HAS_CRYPTED_KEY = h.crypted_key.isSome := by
  have aux := written_flag_bits_aux h.flag
  unfold header_version.written_flag
  by_cases h0 : h.initial_offset = 0 <;> cases hk : h.crypted_key <;> simp [h0, aux]

theorem header_read_write (h : header_version) (rest : List Byte) :
    header_version.read (h.write ++ rest)
      = some ({ h with flag := h.written_flag }, rest) := by
  have hio := written_flag_initial_offset h
  have hck := written_flag_has_crypted_key h
  obtain ⟨edition, algo_zip, cmd_line, flag, initial_offset, sym, crypted_key⟩ := h
  simp only at hio hck
  simp only [header_version.write, header_version.read, List.append_assoc,
    List.singleton_append, List.cons_append, List.nil_append,
    infinint_read_dump, read_blob_write, read_byte, Option.bind_eq_bind, Option.some_bind, hio, hck]
  by_cases h0 : initial_offset = 0
  · cases crypted_key with
    | none => simp [h0, read_byte]
    | some key => simp [h0, read_byte, read_blob_write]
  · cases crypted_key with
    | none => simp [h0, read_byte, infinint_read_dump]
    | some key => simp [h0, read_byte, read_blob_write, infinint_read_dump]

/-! ## Signature codec and block devices -/

theorem saved_status_find_code (code : saved_status → Nat) (hinj : Function.Injective code)
    (s : saved_status) :
    saved_status.all.find? (fun s' => code s' == code s) = some s := by
  cases s <;> simp [saved_status.all, List.find?_cons, hinj.eq_iff]

theorem decode_mk_signature (registered : List Byte) (code : saved_status → Nat)
    (hcode : ∀ s, code s < 8) (hinj : Function.Injective code)
    (k : Byte) (hk : k ∈ registered) (hlow : 97 ≤ k.val ∧ k.val ≤ 122) (s : saved_status) :
    decode_signature registered code (mk_signature code k s) = some (k, s) := by
  have hc := hcode s
  have hval : (mk_signature code k s).val = code s * 32 + k.val % 32 := by
    simp only [mk_signature]
    omega
  have hbase : (⟨96 + (mk_signature code k s).val % 32, by omega⟩ : Byte) = k := by
    apply Fin.ext
    simp only [hval]
    omega
  have hdiv : (mk_signature code k s).val / 32 = code s := by
    rw [hval]; omega
  simp only [decode_signature, hbase, hk, if_true, hdiv, saved_status_find_code code hinj s,
    Option.map_some']


/-! ## Option lists -/

section mycurl_lemmas

variable {Tag : Type} {Val : Tag → Type}

theorem dynamic_cast_same [DecidableEq Tag] (e : mycurl_param_element_generic Val) :
    e.dynamic_cast e.T = some e.val := by
  simp [mycurl_param_element_generic.dynamic_cast]

theorem dynamic_cast_other [DecidableEq Tag] (T : Tag)
    (e : mycurl_param_element_generic Val) (h : e.T ≠ T) :
    e.dynamic_cast T = none := by
  simp [mycurl_param_element_generic.dynamic_cast, h]

theorem clone_eq_self (e : mycurl_param_element_generic Val) : e.clone = e := rfl

theorem find_assign_same (opt : CURLoption) (v : Option (mycurl_param_element_generic Val))
    (m : element_map Val) : element_map.find opt (element_map.assign opt v m) = some v := by
  induction m with
  | nil => simp [element_map.assign, element_map.find]
  | cons e rest ih =>
    obtain ⟨k, w⟩ := e
    simp only [element_map.assign]
    by_cases h1 : opt < k
    · simp [h1, element_map.find]
    · by_cases h2 : opt = k
      · simp [h2, element_map.find]
      · simp [h1, h2, element_map.find, ih]

theorem find_assign_other (opt opt' : CURLoption) (hne : opt' ≠ opt)
    (v : Option (mycurl_param_element_generic Val)) (m : element_map Val) :
    element_map.find opt' (element_map.assign opt v m) = element_map.find opt' m := by
  induction m with
  | nil => simp [element_map.assign, element_map.find, hne]
  | cons e rest ih =>
    obtain ⟨k, w⟩ := e
    simp only [element_map.assign]
    by_cases h1 : opt < k
    · simp [h1, element_map.find, hne]
    · by_cases h2 : opt = k
      · subst h2
        simp [element_map.find, hne]
      · simp only [h1, h2, if_false, element_map.find, ih]

theorem find_eq_none_of_lt (opt : CURLoption) (m : element_map Val)
    (h : ∀ e ∈ m, opt < e.1) : element_map.find opt m = none := by
  induction m with
  | nil => rfl
  | cons e rest ih =>
    obtain ⟨k, w⟩ := e
    have hk : opt < k := h (k, w) (List.mem_cons_self _ _)
    have hne : opt ≠ k := Nat.ne_of_lt hk
    simp only [element_map.find, hne, if_false]
    exact ih (fun e he => h e (List.mem_cons_of_mem _ he))

theorem find_mem (opt : CURLoption) (m : element_map Val)
    (v : Option (mycurl_param_element_generic Val)) (h : element_map.find opt m = some v) :
    (opt, v) ∈ m := by
  induction m with
  | nil => simp [element_map.find] at h
  | cons e rest ih =>
    obtain ⟨k, w⟩ := e
    simp only [element_map.find] at h
    by_cases hk : opt = k
    · simp only [hk, if_true, Option.some.injEq] at h
      subst hk; subst h
      exact List.mem_cons_self _ _
    · simp only [hk, if_false] at h
      exact List.mem_cons_of_mem _ (ih h)

theorem mem_find_of_ordered (m : element_map Val) (hm : m.ordered) (opt : CURLoption)
    (v : Option (mycurl_param_element_generic Val)) (h : (opt, v) ∈ m) :
    element_map.find opt m = some v := by
  induction m with
  | nil => simp at h
  | cons e rest ih =>
    obtain ⟨k, w⟩ := e
    have hm' := List.pairwise_cons.mp hm
    rcases List.mem_cons.mp h with heq | hin
    · simp only [Prod.mk.injEq] at heq
      simp [element_map.find, heq.1, heq.2]
    · have hlt : k < opt := hm'.1 (opt, v) hin
      have hne : opt ≠ k := Nat.ne_of_gt hlt
      simp only [element_map.find, hne, if_false]
      exact ih hm'.2 hin

theorem length_assign (opt : CURLoption) (v : Option (mycurl_param_element_generic Val))
    (m : element_map Val) (hm : m.ordered) :
    (element_map.assign opt v m).length
      = if (element_map.find opt m).isSome then m.length else m.length + 1 := by
  induction m with
  | nil => simp [element_map.assign, element_map.find]
  | cons e rest ih =>
    obtain ⟨k, w⟩ := e
    have hm' := List.pairwise_cons.mp hm
    simp only [element_map.assign]
    by_cases h1 : opt < k
    · have hne : opt ≠ k := Nat.ne_of_lt h1
      have hnone : element_map.find opt rest = none :=
        find_eq_none_of_lt opt rest (fun e he => Nat.lt_trans h1 (hm'.1 e he))
      simp [h1, element_map.find, hne, hnone]
    · by_cases h2 : opt = k
      · simp [h2, element_map.find]
      · simp only [h1, h2, if_false, element_map.find, List.length_cons, ih hm'.2]
        split <;> rfl

theorem mem_assign (opt : CURLoption) (v : Option (mycurl_param_element_generic Val))
    (m : element_map Val) (e : CURLoption × Option (mycurl_param_element_generic Val))
    (he : e ∈ element_map.assign opt v m) : e = (opt, v) ∨ e ∈ m := by
  induction m with
  | nil =>
    simp only [element_map.assign, List.mem_singleton] at he
    exact Or.inl he
  | cons e' rest ih =>
    obtain ⟨k, w⟩ := e'
    simp only [element_map.assign] at he
    by_cases h1 : opt < k
    · simp only [h1, if_true, List.mem_cons] at he
      rcases he with h | h | h
      · exact Or.inl h
      · exact Or.inr (by simp [h])
      · exact Or.inr (List.mem_cons_of_mem _ h)
    · by_cases h2 : opt = k
      · subst h2
        simp only [Nat.lt_irrefl, if_false, if_true, List.mem_cons] at he
        rcases he with h | h
        · exact Or.inl h
        · exact Or.inr (List.mem_cons_of_mem _ h)
      · simp only [h1, h2, if_false, List.mem_cons] at he
        rcases he with h | h
        · exact Or.inr (by simp [h])
        · rcases ih h with h' | h'
          · exact Or.inl h'
          · exact Or.inr (List.mem_cons_of_mem _ h')

theorem ordered_assign (opt : CURLoption) (v : Option (mycurl_param_element_generic Val))
    (m : element_map Val) (hm : m.ordered) : (element_map.assign opt v m).ordered := by
  induction m with
  | nil => simp [element_map.assign, element_map.ordered]
  | cons e rest ih =>
    obtain ⟨k, w⟩ := e
    have hm' := List.pairwise_cons.mp hm
    simp only [element_map.assign]
    by_cases h1 : opt < k
    · simp only [h1, if_true]
      refine List.pairwise_cons.mpr ⟨?_, hm⟩
      intro e he
      rcases List.mem_cons.mp he with h | h
      · simpa [h] using h1
      · exact Nat.lt_trans h1 (hm'.1 e h)
    · by_cases h2 : opt = k
      · simp only [h2, Nat.lt_irrefl, if_false, if_true]
        exact List.pairwise_cons.mpr ⟨hm'.1, hm'.2⟩
      · simp only [h1, h2, if_false]
        refine List.pairwise_cons.mpr ⟨?_, ih hm'.2⟩
        intro e he
        rcases mem_assign opt v rest e he with h | h
        · have : k < opt := Nat.lt_of_le_of_ne (Nat.le_of_not_lt h1) (Ne.symm h2)
          simpa [h] using this
        · exact hm'.1 e h

theorem no_null_assign (opt : CURLoption) (x : mycurl_param_element_generic Val)
    (m : element_map Val) (hm : m.no_null) : (element_map.assign opt (some x) m).no_null := by
  intro e he
  rcases mem_assign opt (some x) m e he with h | h
  · simp [h]
  · exact hm e h


theorem update_with_loop_cons [DecidableEq Tag] [∀ t, BEq (Val t)]
    (self : mycurl_param_list Val) (hs : self.element_list.no_null)
    (k : CURLoption) (w : mycurl_param_element_generic Val) (rest : element_map Val) :
    self.update_with_loop ((k, some w) :: rest)
      = if self.differs k w then
          (mycurl_param_list.update_with_loop (self.add_clone k w) rest).map
            (fun r => (r.1, k :: r.2))
        else self.update_with_loop rest := by
  obtain ⟨x, hf⟩ : ∃ x, self.element_list.find k = x := ⟨_, rfl⟩
  simp only [mycurl_param_list.update_with_loop, mycurl_param_list.differs, hf]
  cases x with
  | none => simp
  | some mit =>
    cases mit with
    | none =>
      have := hs _ (find_mem k _ _ hf)
      simp at this
    | some m =>
      cases hne : m.ne w <;> simp [hne]

theorem update_with_loop_spec [DecidableEq Tag] [∀ t, BEq (Val t)]
    (wanted : element_map Val) (hw : wanted.ordered) (hwn : wanted.no_null)
    (self : mycurl_param_list Val) (hs : self.element_list.no_null) :
    ∃ self' ret, self.update_with_loop wanted = some (self', ret)
      ∧ self'.element_list.no_null
      ∧ (∀ opt ∈ ret, ∃ w, (opt, some w) ∈ wanted)
      ∧ ret.Pairwise (fun a b => a < b)
      ∧ (∀ opt, (∀ v, (opt, v) ∉ wanted) →
          self'.element_list.find opt = self.element_list.find opt)
      ∧ (∀ opt w, (opt, some w) ∈ wanted →
          (self.differs opt w = true →
            opt ∈ ret ∧ self'.element_list.find opt = some (some w))
          ∧ (self.differs opt w = false →
            opt ∉ ret ∧ self'.element_list.find opt = self.element_list.find opt)) := by
  induction wanted generalizing self with
  | nil =>
    refine ⟨self, [], rfl, hs, ?_, List.Pairwise.nil, fun _ _ => rfl, ?_⟩
    · intro opt h; simp at h
    · intro opt w h; simp at h
  | cons e rest ih =>
    obtain ⟨k, wit⟩ := e
    have hw' := List.pairwise_cons.mp hw
    have hrestn : element_map.no_null rest := fun e he => hwn e (List.mem_cons_of_mem _ he)
    have hk_notin : ∀ v, (k, v) ∉ rest := fun v hv => Nat.lt_irrefl k (hw'.1 (k, v) hv)
    cases wit with
    | none =>
      have := hwn (k, none) (List.mem_cons_self _ _)
      simp at this
    | some w =>
      rw [update_with_loop_cons self hs]
      by_cases hd : self.differs k w = true
      · -- the option is stored in `this` and reported
        have hs1 : (self.add_clone k w).element_list.no_null :=
          no_null_assign k w.clone self.element_list hs
        obtain ⟨self', ret1, hrun, hnn, hsub, hsorted, hout, hin⟩ :=
          ih hw'.2 hrestn (self.add_clone k w) hs1
        have hfind1 : ∀ opt, opt ≠ k →
            (self.add_clone k w).element_list.find opt = self.element_list.find opt :=
          fun opt hne => find_assign_other k opt hne _ _
        have hdiff1 : ∀ opt w0, opt ≠ k →
            (self.add_clone k w).differs opt w0 = self.differs opt w0 := by
          intro opt w0 hne
          simp only [mycurl_param_list.differs, hfind1 opt hne]
        refine ⟨self', k :: ret1, by simp [hd, hrun], hnn, ?_, ?_, ?_, ?_⟩
        · intro opt hopt
          rcases List.mem_cons.mp hopt with h | h
          · exact ⟨w, by simp [h]⟩
          · obtain ⟨w0, hw0⟩ := hsub opt h
            exact ⟨w0, List.mem_cons_of_mem _ hw0⟩
        · refine List.pairwise_cons.mpr ⟨?_, hsorted⟩
          intro opt hopt
          obtain ⟨w0, hw0⟩ := hsub opt hopt
          exact hw'.1 (opt, some w0) hw0
        · intro opt hnot
          have hne : opt ≠ k := fun h => hnot (some w) (by simp [h])
          rw [hout opt (fun v hv => hnot v (List.mem_cons_of_mem _ hv)), hfind1 opt hne]
        · intro opt w0 hmem
          rcases List.mem_cons.mp hmem with h | h
          · simp only [Prod.mk.injEq, Option.some.injEq] at h
            obtain ⟨h1, h2⟩ := h
            subst h1; subst h2
            refine ⟨fun _ => ⟨List.mem_cons_self _ _, ?_⟩, fun hf => ?_⟩
            · rw [hout opt hk_notin]
              exact find_assign_same opt _ _
            · rw [hf] at hd
              exact absurd hd (by simp)
          · have hlt : k < opt := hw'.1 (opt, some w0) h
            have hne : opt ≠ k := Nat.ne_of_gt hlt
            obtain ⟨hin1, hin2⟩ := hin opt w0 h
            rw [hdiff1 opt w0 hne] at hin1 hin2
            refine ⟨fun hT => ?_, fun hF => ?_⟩
            · exact ⟨List.mem_cons_of_mem _ (hin1 hT).1, (hin1 hT).2⟩
            · refine ⟨?_, ?_⟩
              · intro hmem'
                rcases List.mem_cons.mp hmem' with h' | h'
                · exact hne h'
                · exact (hin2 hF).1 h'
              · rw [(hin2 hF).2, hfind1 opt hne]
      · -- the option is left as it is
        have hd' : self.differs k w = false := by simpa using hd
        obtain ⟨self', ret1, hrun, hnn, hsub, hsorted, hout, hin⟩ := ih hw'.2 hrestn self hs
        have hk_ret : k ∉ ret1 := by
          intro hmem
          obtain ⟨w0, hw0⟩ := hsub k hmem
          exact hk_notin _ hw0
        refine ⟨self', ret1, by simp [hd', hrun], hnn, ?_, hsorted, ?_, ?_⟩
        · intro opt hopt
          obtain ⟨w0, hw0⟩ := hsub opt hopt
          exact ⟨w0, List.mem_cons_of_mem _ hw0⟩
        · intro opt hnot
          exact hout opt (fun v hv => hnot v (List.mem_cons_of_mem _ hv))
        · intro opt w0 hmem
          rcases List.mem_cons.mp hmem with h | h
          · simp only [Prod.mk.injEq, Option.some.injEq] at h
            obtain ⟨h1, h2⟩ := h
            subst h1; subst h2
            refine ⟨fun hT => ?_, fun _ => ⟨hk_ret, hout opt hk_notin⟩⟩
            rw [hT] at hd'
            exact absurd hd' (by simp)
          · exact hin opt w0 h

end mycurl_lemmas

/-! ## The header flags -/

/-- C1: for every header and every flag byte the caller put in it, reading back
what `write` produced succeeds and gives a header whose flag has
`VERSION_FLAG_INITIAL_OFFSET` set if and only if the initial offset written
is not zero; the initial offset itself is read back unchanged. -/
theorem header_initial_offset_flag_roundtrip (h : header_version) (caller_flag : Byte)
    (rest : List Byte) :
    ∃ h' : header_version,
      header_version.read (({ h with flag := caller_flag }).write ++ rest) = some (h', rest)
      ∧ (flag_test h'.flag VERSION_FLAG_INITIAL_OFFSET = true ↔ h.initial_offset ≠ 0)
      ∧ h'.initial_offset = h.initial_offset := by
  refine ⟨_, header_read_write _ rest, ?_, rfl⟩
  have hbit := written_flag_initial_offset { h with flag := caller_flag }
  simp only [hbit, decide_eq_true_eq]

/-- C2: for every header, with a key blob or without one, reading back what
`write` produced succeeds and gives a header whose flag has
`VERSION_FLAG_HAS_CRYPTED_KEY` set if and only if a key blob was attached,
and if and only if the header read holds one; the blob read is the blob
written. -/
theorem header_crypted_key_flag_roundtrip (h : header_version) (rest : List Byte) :
    ∃ h' : header_version,
      header_version.read (h.write ++ rest) = some (h', rest)
      ∧ (flag_test h'.flag VERSION_FLAG_HAS_CRYPTED_KEY = true ↔ h.crypted_key.isSome = true)
      ∧ (flag_test h'.flag VERSION_FLAG_HAS_CRYPTED_KEY = true ↔ h'.crypted_key.isSome = true)
      ∧ h'.crypted_key = h.crypted_key := by
  refine ⟨_, header_read_write h rest, ?_, ?_, rfl⟩ <;>
    simp only [written_flag_has_crypted_key h]

set_option maxRecDepth 1000000 in
/-- C7: the seven flag constants are distinct single-bit masks below 256, no
two of them share a bit, or-ing one into the flag byte loses nothing to the
truncation, and setting or clearing one flag sets or clears its own test and
leaves the test of every other flag as it was. -/
theorem version_flags_single_bit_disjoint :
    VERSION_FLAGS.length = 7
    ∧ VERSION_FLAGS.Nodup
    ∧ (∀ c ∈ VERSION_FLAGS, c < 256 ∧ ∃ k, k < 8 ∧ c = 2 ^ k)
    ∧ (∀ c ∈ VERSION_FLAGS, ∀ c' ∈ VERSION_FLAGS, c ≠ c' → c &&& c' = 0)
    ∧ (∀ f : Byte, ∀ c ∈ VERSION_FLAGS,
        (flag_set f c).val = f.val ||| c
        ∧ flag_test (flag_set f c) c = true
        ∧ flag_test (flag_clear f c) c = false
        ∧ ∀ c' ∈ VERSION_FLAGS, c' ≠ c →
            flag_test (flag_set f c) c' = flag_test f c'
            ∧ flag_test (flag_clear f c) c' = flag_test f c') := by
  refine ⟨by decide, by decide, by decide, by decide, ?_⟩
  decide

/-! ## Block devices -/

/-- C3: the signature of a block device is `mk_signature('b', s)` with `s` its
saved status, whatever its other fields: two block devices with the same
saved status have the same signature, and the device "sdb" of the scenario
has the signature of `'b'` and saved-in-full. -/
theorem blockdev_signature_eq (code : saved_status → Nat) (x : blockdev) :
    x.signature code = mk_signature code (char_byte 'b') x.get_saved_status
    ∧ (∀ y : blockdev, y.get_saved_status = x.get_saved_status →
        y.signature code = x.signature code)
    ∧ blockdev_sdb.signature code
        = mk_signature code (char_byte 'b') saved_status.saved_in_full := by
  refine ⟨rfl, ?_, rfl⟩
  intro y hy
  simp only [blockdev.signature, hy]

/-- C4: with status codes that are pairwise different and fit the three high
bits, decoding the signature byte built from a registered (lower-case) kind
letter and a saved status gives back that letter and that status, so two
different (letter, status) pairs never have the same byte. -/
theorem signature_decode_encode (registered : List Byte) (code : saved_status → Nat)
    (hreg : ∀ r ∈ registered, 97 ≤ r.val ∧ r.val ≤ 122)
    (hcode : ∀ s, code s < 8) (hinj : Function.Injective code)
    (k : Byte) (hk : k ∈ registered) (s : saved_status) :
    decode_signature registered code (mk_signature code k s) = some (k, s)
    ∧ ∀ k' ∈ registered, ∀ s' : saved_status,
        mk_signature code k' s' = mk_signature code k s → k' = k ∧ s' = s := by
  have h1 := decode_mk_signature registered code hcode hinj k hk (hreg k hk) s
  refine ⟨h1, ?_⟩
  intro k' hk' s' heq
  have h2 := decode_mk_signature registered code hcode hinj k' hk' (hreg k' hk') s'
  rw [heq, h1] at h2
  simp only [Option.some.injEq, Prod.mk.injEq] at h2
  exact ⟨h2.1.symm, h2.2.symm⟩

set_option maxRecDepth 10000 in
theorem signature_decode_encode_witness :
    (∀ r ∈ kind_letters_sample, 97 ≤ r.val ∧ r.val ≤ 122)
    ∧ (∀ s, status_code_sample s < 8)
    ∧ Function.Injective status_code_sample
    ∧ char_byte 'b' ∈ kind_letters_sample
    ∧ decode_signature kind_letters_sample status_code_sample
        (mk_signature status_code_sample (char_byte 'b') saved_status.saved_in_full)
        = some (char_byte 'b', saved_status.saved_in_full) :=
  have hreg : ∀ r ∈ kind_letters_sample, 97 ≤ r.val ∧ r.val ≤ 122 := by decide
  have hcode : ∀ s, status_code_sample s < 8 := by intro s; cases s <;> decide
  have hinj : Function.Injective status_code_sample := by
    intro a b hab
    cases a <;> cases b <;> first | rfl | exact absurd hab (by decide)
  have hk : char_byte 'b' ∈ kind_letters_sample := by decide
  ⟨hreg, hcode, hinj, hk,
    (signature_decode_encode kind_letters_sample status_code_sample hreg hcode hinj
      (char_byte 'b') hk saved_status.saved_in_full).1⟩

/-- C5: `clone` called on a block device of the pool succeeds and returns the
address of a new object, different from the one cloned, which is a block
device equal to it field for field and has its signature; the object cloned
and every other object of the pool are as they were. -/
theorem blockdev_clone_copy (code : saved_status → Nat) (pool : Pool) (self : Nat)
    (x : blockdev) (hx : pool[self]? = some x) :
    ∃ (pool' : Pool) (ret : Nat), blockdev.clone pool self = some (pool', ret)
      ∧ ret ≠ self
      ∧ pool'[self]? = some x
      ∧ (∀ (a : Nat) (y : blockdev), pool[a]? = some y → pool'[a]? = some y)
      ∧ ∃ c : blockdev, pool'[ret]? = some c
          ∧ c.uid = x.uid ∧ c.gid = x.gid ∧ c.perm = x.perm
          ∧ c.last_access = x.last_access ∧ c.last_modif = x.last_modif
          ∧ c.last_change = x.last_change ∧ c.name = x.name
          ∧ c.major = x.major ∧ c.minor = x.minor ∧ c.fs_device = x.fs_device
          ∧ c.get_saved_status = x.get_saved_status
          ∧ c = x
          ∧ c.signature code = x.signature code := by
  have hlt : self < pool.length := (List.getElem?_eq_some_iff.mp hx).1
  have hkeep : ∀ (a : Nat) (y : blockdev), pool[a]? = some y →
      (pool ++ [blockdev.copy x])[a]? = some y := by
    intro a y hy
    have ha : a < pool.length := (List.getElem?_eq_some_iff.mp hy).1
    rw [List.getElem?_append_left ha]
    exact hy
  refine ⟨pool ++ [blockdev.copy x], pool.length, ?_, Nat.ne_of_gt hlt, hkeep self x hx, hkeep,
    blockdev.copy x, by simp, rfl, rfl, rfl, rfl, rfl, rfl, rfl, rfl, rfl, rfl, rfl, rfl, rfl⟩
  simp only [blockdev.clone, hx, Pool.new_blockdev]

theorem blockdev_clone_copy_witness :
    [blockdev_sdb][0]? = some blockdev_sdb
    ∧ ∃ (pool' : Pool) (ret : Nat), blockdev.clone [blockdev_sdb] 0 = some (pool', ret)
        ∧ ret ≠ 0
        ∧ pool'[0]? = some blockdev_sdb
        ∧ ∃ c : blockdev, pool'[ret]? = some c ∧ c = blockdev_sdb := by
  refine ⟨rfl, ?_⟩
  obtain ⟨pool', ret, hrun, hne, hself, -, c, hc, -, -, -, -, -, -, -, -, -, -, -, hcx, -⟩ :=
    blockdev_clone_copy status_code_sample [blockdev_sdb] 0 blockdev_sdb rfl
  exact ⟨pool', ret, hrun, hne, hself, c, hc, hcx⟩

/-! ## Option lists: the claims -/

section mycurl_claims

variable {Tag : Type} [DecidableEq Tag] {Val : Tag → Type}

theorem eq_of_refl_self [∀ t, BEq (Val t)]
    (hrefl : ∀ (t : Tag) (v : Val t), (v == v) = true)
    (e : mycurl_param_element_generic Val) : e.eq e = true := by
  simp only [mycurl_param_element_generic.eq, dynamic_cast_same, hrefl]

theorem eq_of_types_ne [∀ t, BEq (Val t)] (a b : mycurl_param_element_generic Val)
    (h : a.T ≠ b.T) :
    a.eq b = false := by
  simp only [mycurl_param_element_generic.eq, dynamic_cast_other a.T b (Ne.symm h)]

theorem same_of_eq_true [∀ t, BEq (Val t)]
    (hlawful : ∀ (t : Tag) (a b : Val t), (a == b) = true → a = b)
    (m w : mycurl_param_element_generic Val) (h : m.eq w = true) : m = w := by
  obtain ⟨T1, v1⟩ := m
  obtain ⟨T2, v2⟩ := w
  by_cases hT : T2 = T1
  · subst hT
    simp only [mycurl_param_element_generic.eq, mycurl_param_element_generic.dynamic_cast,
      dite_true] at h
    rw [hlawful _ _ _ h]
  · simp [mycurl_param_element_generic.eq, mycurl_param_element_generic.dynamic_cast, hT] at h

theorem differs_iff [∀ t, BEq (Val t)] (self : mycurl_param_list Val)
    (hs : self.element_list.no_null)
    (opt : CURLoption) (w : mycurl_param_element_generic Val) :
    self.differs opt w = true ↔
      (self.element_list.find opt = none
        ∨ ∃ m, self.element_list.find opt = some (some m) ∧ m.ne w = true) := by
  obtain ⟨x, hf⟩ : ∃ x, self.element_list.find opt = x := ⟨_, rfl⟩
  simp only [mycurl_param_list.differs, hf]
  cases x with
  | none => simp
  | some mit =>
    cases mit with
    | none =>
      have := hs _ (find_mem opt _ _ hf)
      simp at this
    | some m => simp

/-- C8: when `==` of every value type is reflexive, the clone of an element
compares equal to the element, in both directions, and `!=` is false for them;
two elements of different value types are never equal: `==` is false and `!=`
is true. -/
theorem element_clone_eq_and_type_mismatch [∀ t, BEq (Val t)]
    (hrefl : ∀ (t : Tag) (v : Val t), (v == v) = true)
    (e a b : mycurl_param_element_generic Val) :
    (e.clone.eq e = true ∧ e.eq e.clone = true
      ∧ e.clone.ne e = false ∧ e.ne e.clone = false)
    ∧ (a.T ≠ b.T → a.eq b = false ∧ a.ne b = true) := by
  have hee : e.eq e = true := eq_of_refl_self hrefl e
  refine ⟨⟨?_, ?_, ?_, ?_⟩, ?_⟩
  · simpa only [clone_eq_self] using hee
  · simpa only [clone_eq_self] using hee
  · simp only [mycurl_param_element_generic.ne, clone_eq_self, hee, Bool.not_true]
  · simp only [mycurl_param_element_generic.ne, clone_eq_self, hee, Bool.not_true]
  · intro hT
    have hab := eq_of_types_ne a b hT
    exact ⟨hab, by simp only [mycurl_param_element_generic.ne, hab, Bool.not_false]⟩

/-- C9: after `add(opt, v)` on a well-formed list, `get_val<T>(opt, p)` returns
true and leaves `p` on the value `v`; `size()` is unchanged when `opt` was
present and one more when it was absent (and `size()` was not yet the largest
`U_I`); every other option has the entry, and the `get_val`, it had; the map
stays ordered.  On any list `get_val` returns false exactly when the option is
absent, leaving `p` alone, and returns true with a null `p` when the option is
stored with another value type. -/
theorem add_then_get_val (L : mycurl_param_list Val) (hL : L.element_list.ordered)
    (T : Tag) (opt : CURLoption) (v : Val T) (p : Option (Val T)) :
    (L.add T opt v).get_val T opt p = (true, some v)
    ∧ ((L.element_list.find opt).isSome = true → (L.add T opt v).size = L.size)
    ∧ (L.element_list.find opt = none → L.size < U_I_MAX → (L.add T opt v).size = L.size + 1)
    ∧ (∀ opt' : CURLoption, opt' ≠ opt →
        (L.add T opt v).element_list.find opt' = L.element_list.find opt'
        ∧ ∀ (T' : Tag) (p' : Option (Val T')),
            (L.add T opt v).get_val T' opt' p' = L.get_val T' opt' p')
    ∧ (L.add T opt v).element_list.ordered
    ∧ (∀ (M : mycurl_param_list Val) (T' : Tag) (opt' : CURLoption) (p' : Option (Val T')),
        ((M.get_val T' opt' p').1 = false ↔ M.element_list.find opt' = none)
        ∧ (M.element_list.find opt' = none → M.get_val T' opt' p' = (false, p'))
        ∧ ∀ e : mycurl_param_element_generic Val,
            M.element_list.find opt' = some (some e) → e.T ≠ T' →
              M.get_val T' opt' p' = (true, none)) := by
  have hlen := length_assign opt (some { T := T, val := v }) L.element_list hL
  refine ⟨?_, ?_, ?_, ?_, ordered_assign opt _ _ hL, ?_⟩
  · simp [mycurl_param_list.get_val, mycurl_param_list.add, find_assign_same,
      mycurl_param_element_generic.dynamic_cast]
  · intro hsome
    simp only [mycurl_param_list.size, mycurl_param_list.add, hlen, hsome, if_true]
  · intro hnone hsize
    simp only [mycurl_param_list.size, mycurl_param_list.add, hlen, hnone, Option.isSome_none,
      Bool.false_eq_true, if_false, U_I_MAX] at hsize ⊢
    omega
  · intro opt' hne
    have hfind := find_assign_other opt opt' hne (some { T := T, val := v }) L.element_list
    refine ⟨hfind, ?_⟩
    intro T' p'
    simp only [mycurl_param_list.get_val, mycurl_param_list.add, hfind]
  · intro M T' opt' p'
    obtain ⟨x, hf⟩ : ∃ x, M.element_list.find opt' = x := ⟨_, rfl⟩
    refine ⟨?_, ?_, ?_⟩
    · simp only [mycurl_param_list.get_val, hf]
      cases x with
      | none => simp
      | some it =>
        cases it with
        | none => simp
        | some elem =>
          simp only
          split <;> simp
    · intro hnone
      simp only [mycurl_param_list.get_val, hnone]
    · intro e he hT
      simp only [mycurl_param_list.get_val, he, dynamic_cast_other T' e hT]

/-- C6: on a well-formed `wanted` (and no null entry in either list)
`update_with` returns, each once, exactly the options of `wanted` that were
absent from `this` or had a different value (`!=`) in it; afterwards every
option of `wanted` has in `this` either the value of `wanted` or the value it
had, which compares equal to it (the value of `wanted` itself when `==` is
equality of values); an option that is not in `wanted`, or whose value in
`this` compares equal to the one in `wanted`, keeps its entry and is not
returned. -/
theorem update_with_spec [∀ t, BEq (Val t)] (self wanted : mycurl_param_list Val)
    (hw : wanted.element_list.ordered) (hwn : wanted.element_list.no_null)
    (hs : self.element_list.no_null) :
    ∃ (self' : mycurl_param_list Val) (ret : List CURLoption),
      self.update_with wanted = some (self', ret)
      ∧ ret.Nodup
      ∧ (∀ opt : CURLoption, opt ∈ ret ↔
          ∃ w, wanted.element_list.find opt = some (some w)
            ∧ (self.element_list.find opt = none
              ∨ ∃ m, self.element_list.find opt = some (some m) ∧ m.ne w = true))
      ∧ (∀ (opt : CURLoption) (w : mycurl_param_element_generic Val),
          wanted.element_list.find opt = some (some w) →
            self'.element_list.find opt = some (some w)
            ∨ ∃ m, self'.element_list.find opt = some (some m)
                ∧ self.element_list.find opt = some (some m) ∧ m.ne w = false)
      ∧ ((∀ (t : Tag) (a b : Val t), (a == b) = true → a = b) →
          ∀ (opt : CURLoption) (w : mycurl_param_element_generic Val),
            wanted.element_list.find opt = some (some w) →
              self'.element_list.find opt = some (some w))
      ∧ (∀ opt : CURLoption,
          (wanted.element_list.find opt = none
            ∨ ∃ m w, self.element_list.find opt = some (some m)
                ∧ wanted.element_list.find opt = some (some w) ∧ m.ne w = false) →
          self'.element_list.find opt = self.element_list.find opt ∧ opt ∉ ret) := by
  obtain ⟨self', ret, hrun, -, hsub, hsorted, hout, hin⟩ :=
    update_with_loop_spec wanted.element_list hw hwn self hs
  have hmem : ∀ opt w, wanted.element_list.find opt = some (some w) →
      (opt, some w) ∈ wanted.element_list := fun opt w h => find_mem opt _ _ h
  -- what happens to an option of `wanted` whose value in `this` compares equal
  have hkept : ∀ opt m w, self.element_list.find opt = some (some m) →
      wanted.element_list.find opt = some (some w) → m.ne w = false →
      opt ∉ ret ∧ self'.element_list.find opt = self.element_list.find opt := by
    intro opt m w hm hwf hne
    refine (hin opt w (hmem opt w hwf)).2 ?_
    simp only [mycurl_param_list.differs, hm, hne]
  refine ⟨self', ret, hrun, ?_, ?_, ?_, ?_, ?_⟩
  · exact hsorted.imp (fun h => Nat.ne_of_lt h)
  · intro opt
    constructor
    · intro hopt
      obtain ⟨w, hwm⟩ := hsub opt hopt
      refine ⟨w, mem_find_of_ordered _ hw opt _ hwm, ?_⟩
      apply (differs_iff self hs opt w).mp
      cases hd : self.differs opt w with
      | true => rfl
      | false => exact absurd hopt ((hin opt w hwm).2 hd).1
    · rintro ⟨w, hwf, hcond⟩
      exact ((hin opt w (hmem opt w hwf)).1 ((differs_iff self hs opt w).mpr hcond)).1
  · intro opt w hwf
    cases hd : self.differs opt w with
    | true => exact Or.inl ((hin opt w (hmem opt w hwf)).1 hd).2
    | false =>
      have hkeep := ((hin opt w (hmem opt w hwf)).2 hd).2
      obtain ⟨x, hf⟩ : ∃ x, self.element_list.find opt = x := ⟨_, rfl⟩
      simp only [mycurl_param_list.differs, hf] at hd
      cases x with
      | none => simp at hd
      | some mit =>
        cases mit with
        | none =>
          have := hs _ (find_mem opt _ _ hf)
          simp at this
        | some m =>
          simp only at hd
          exact Or.inr ⟨m, by rw [hkeep, hf], hf, hd⟩
  · intro hlawful opt w hwf
    cases hd : self.differs opt w with
    | true => exact ((hin opt w (hmem opt w hwf)).1 hd).2
    | false =>
      have hkeep := ((hin opt w (hmem opt w hwf)).2 hd).2
      obtain ⟨x, hf⟩ : ∃ x, self.element_list.find opt = x := ⟨_, rfl⟩
      simp only [mycurl_param_list.differs, hf] at hd
      cases x with
      | none => simp at hd
      | some mit =>
        cases mit with
        | none =>
          have := hs _ (find_mem opt _ _ hf)
          simp at this
        | some m =>
          simp only at hd
          have heq : m.eq w = true := by
            simpa [mycurl_param_element_generic.ne] using hd
          rw [hkeep, hf, same_of_eq_true hlawful m w heq]
  · intro opt hcond
    rcases hcond with hnone | ⟨m, w, hm, hwf, hne⟩
    · refine ⟨hout opt ?_, ?_⟩
      · intro v hv
        rw [mem_find_of_ordered _ hw opt v hv] at hnone
        exact absurd hnone (by simp)
      · intro hopt
        obtain ⟨w, hwm⟩ := hsub opt hopt
        rw [mem_find_of_ordered _ hw opt _ hwm] at hnone
        exact absurd hnone (by simp)
    · exact ⟨(hkept opt m w hm hwf hne).2, (hkept opt m w hm hwf hne).1⟩

end mycurl_claims

theorem sample_val_beq_refl (t : sample_type) (v : sample_val t) : (v == v) = true := by
  cases t
  · exact beq_self_eq_true (α := Int) v
  · exact beq_self_eq_true (α := String) v

theorem element_clone_eq_and_type_mismatch_witness :
    (∀ (t : sample_type) (v : sample_val t), (v == v) = true)
    ∧ (elem_long 5).clone.eq (elem_long 5) = true
    ∧ (elem_long 5).clone.ne (elem_long 5) = false
    ∧ (elem_long 5).eq (elem_string "5") = false
    ∧ (elem_long 5).ne (elem_string "5") = true :=
  have h := element_clone_eq_and_type_mismatch sample_val_beq_refl
    (elem_long 5) (elem_long 5) (elem_string "5")
  ⟨sample_val_beq_refl, h.1.1, h.1.2.2.1, (h.2 (by decide)).1, (h.2 (by decide)).2⟩

theorem add_then_get_val_witness :
    list_sample.element_list.ordered
    ∧ (list_sample.add sample_type.t_long 3 (7 : Int)).get_val sample_type.t_long 3 none
        = (true, some (7 : Int))
    ∧ (list_sample.add sample_type.t_long 3 (7 : Int)).size = list_sample.size + 1
    ∧ (list_sample.add sample_type.t_long 3 (7 : Int)).element_list.find 2
        = list_sample.element_list.find 2 :=
  have hL : list_sample.element_list.ordered := by
    simp [element_map.ordered, list_sample]
  have h := add_then_get_val list_sample hL sample_type.t_long 3 (7 : Int) none
  ⟨hL, h.1, h.2.2.1 rfl (by decide), (h.2.2.2.1 2 (by decide)).1⟩

theorem update_with_spec_witness :
    wanted_sample.element_list.ordered
    ∧ wanted_sample.element_list.no_null
    ∧ list_sample.element_list.no_null
    ∧ ∃ (self' : mycurl_param_list sample_val) (ret : List CURLoption),
        list_sample.update_with wanted_sample = some (self', ret)
        ∧ ret.Nodup
        ∧ (3 ∈ ret ↔
            ∃ w, wanted_sample.element_list.find 3 = some (some w)
              ∧ (list_sample.element_list.find 3 = none
                ∨ ∃ m, list_sample.element_list.find 3 = some (some m) ∧ m.ne w = true)) := by
  have hw : wanted_sample.element_list.ordered := by
    simp [element_map.ordered, wanted_sample]
  have hwn : wanted_sample.element_list.no_null := by
    simp [element_map.no_null, wanted_sample]
  have hs : list_sample.element_list.no_null := by
    simp [element_map.no_null, list_sample]
  obtain ⟨self', ret, hrun, hnodup, hret, -⟩ :=
    update_with_spec list_sample wanted_sample hw hwn hs
  exact ⟨hw, hwn, hs, self', ret, hrun, hnodup, hret 3⟩


end libdar
